import Mathlib

/-!
Shallow embedding of the blockchain ledger in
`src/playground/projects/blockchain/src/blockchain.rs`.

Modelling conventions:
* `amount : ℚ` models the Rust `f32` amounts.  The ledger only stores,
  copies and compares amounts — it never performs arithmetic on them —
  and all concrete amounts of interest (100.0, 50.0, …) are exactly
  representable in `f32`, so a field with decidable equality is a
  faithful model.
* `timestamp : ℤ` models `i64` milliseconds (the code only copies the
  value produced by the clock, so no wraparound arises); the clock is an
  oracle: each block-creation step receives its timestamp as an input.
* `nonce` is a `Nat` kept below `2^32` by taking `% 2^32` at the only
  increment site (`nonce += 1` in `proof_of_work`), matching `u32`
  wrapping; `count` and `difficulty` are `Nat` (`count` comes from
  `transactions.len() as u32` and `difficulty` from user input — both
  stay far below `2^32` in every behaviour the claims mention, so the
  cast is modelled as the numeric embedding).
* `Chain::hash` is SHA-256 of a `serde_json` encoding, rendered in hex.
  The chain-structure theorems hold for EVERY hash function, so hashing
  is abstracted into a `HashModel` providing the three instantiations
  the code uses (`hash` of a `Transaction`, of a `BlockHeader`, and of a
  `String`); concrete witnesses instantiate it with a computable model.
  The hash strings produced by the program are ASCII, so Rust's
  byte-indexed slice `&hash[..d]` is modelled as a character-prefix.
* Non-termination of the `proof_of_work` loop (and the panic when
  `difficulty` exceeds the hash's length, from the out-of-bounds slice
  `&hash[..difficulty]`) are made explicit: the loop runs on fuel and
  `generate_new_block` returns `Option (Chain × Bool)`, where `none`
  stands for an execution that never returns to the caller.
-/

/-- Rust `struct Transaction { sender, receiver, amount }`. -/
structure Transaction where
  sender : String
  receiver : String
  amount : ℚ
deriving DecidableEq, Repr

/-- Rust `struct BlockHeader { timestamp, nonce, prev_hash, merkle, difficulty }`. -/
structure BlockHeader where
  timestamp : ℤ
  nonce : Nat
  prev_hash : String
  merkle : String
  difficulty : Nat
deriving DecidableEq, Repr

/-- Rust `struct Block { header, count, transactions }`. -/
structure Block where
  header : BlockHeader
  count : Nat
  transactions : List Transaction
deriving DecidableEq, Repr

/-- Rust `struct Chain { blocks, current_transactions, difficulty, miner_address, reward }`. -/
structure Chain where
  blocks : List Block
  current_transactions : List Transaction
  difficulty : Nat
  miner_address : String
  reward : ℚ
deriving DecidableEq, Repr

/-- The three instantiations of the generic `Chain::hash<T: Serialize>`
used by the code: hashing a `Transaction` (Merkle leaves), a
`BlockHeader` (chain links and proof of work), and a `String` (inner
Merkle nodes).  All chain-structure theorems are proved for an arbitrary
model; witnesses use the computable `M0` below. -/
structure HashModel where
  hashTx : Transaction → String
  hashHeader : BlockHeader → String
  hashStr : String → String

/-- The `{:x}` rendering of one hex digit (lowercase). -/
def toHexChar (n : Nat) : Char :=
  if n < 10 then Char.ofNat (48 + n) else Char.ofNat (87 + n)

/-- One `write!(&mut string, "{:x}", byte)` step for a single `u8`: no
zero padding, so a byte below `0x10` contributes a single character. -/
def byteToHex (b : Nat) : List Char :=
  if b < 16 then [toHexChar b] else [toHexChar (b / 16), toHexChar (b % 16)]

/-- Model of `Chain::bytes_to_hex_string`: concatenates the unpadded `{:x}`
renderings of the bytes. -/
def Chain.bytes_to_hex_string (hex_vec : List Nat) : String :=
  String.mk (List.flatten (hex_vec.map byteToHex))

/-- The 64-ASCII-`'0'` sentinel `String::from_utf8(vec![48; 64]).unwrap()`
returned by `last_hash` on an empty block list (byte 48 is `'0'`). -/
def zeros64 : String := String.mk (List.replicate 64 '0')

/-- Model of `Chain::last_hash`: hash of the most recently committed block's
header, or the 64-zero sentinel when no block exists. -/
def Chain.last_hash (M : HashModel) (c : Chain) : String :=
  match c.blocks.getLast? with
  | some b => M.hashHeader b.header
  | none => zeros64

/-- Model of `Chain::new_transaction`: push to the pending pool, return `true`. -/
def Chain.new_transaction (c : Chain) (sender receiver : String) (amount : ℚ) :
    Chain × Bool :=
  ({ c with current_transactions :=
      c.current_transactions ++ [⟨sender, receiver, amount⟩] }, true)

/-- Model of `Chain::update_difficulty`. -/
def Chain.update_difficulty (c : Chain) (difficulty : Nat) : Chain × Bool :=
  ({ c with difficulty := difficulty }, true)

/-- Model of `Chain::update_reward`. -/
def Chain.update_reward (c : Chain) (reward : ℚ) : Chain × Bool :=
  ({ c with reward := reward }, true)

/-- Rust's `str::parse::<u32>()`: an optional leading `'+'`, then at
least one ASCII decimal digit, value below `2^32`; anything else
(including the empty string) is `Err`, modelled as `none`. -/
def parseU32 (s : String) : Option Nat :=
  let cs := match s.toList with
    | '+' :: rest => rest
    | cs => cs
  if cs.isEmpty then none
  else if cs.all (fun c => decide ('0' ≤ c) && decide (c ≤ '9')) then
    let v := cs.foldl (fun a c => a * 10 + (c.toNat - 48)) 0
    if v < 2 ^ 32 then some v else none
  else none

/-- The first `n` characters of `s` (the hash strings the program
slices with `&hash[..n]` are ASCII, so bytes and characters agree). -/
def takeChars (s : String) (n : Nat) : String :=
  String.mk (s.toList.take n)

/-- Number of characters of `s`. -/
def lenChars (s : String) : Nat := s.toList.length

/-- Outcome of the `proof_of_work` loop under a fuel bound:
`sealed` — the loop hit `break` with the given final header;
`outOfFuel` — after `fuel` iterations the loop is still running, with
the header in its current state;
`panicked` — the slice `&hash[..difficulty]` was out of bounds. -/
inductive PowResult where
  | sealed (header : BlockHeader)
  | outOfFuel (header : BlockHeader)
  | panicked
deriving DecidableEq, Repr

/-- Model of `Chain::proof_of_work`: hash the header, take the first
`difficulty` characters, accept iff they parse as the integer zero;
otherwise `nonce += 1` (wrapping `u32`) and retry. -/
def Chain.proof_of_work (M : HashModel) : Nat → BlockHeader → PowResult
  | 0, header => .outOfFuel header
  | fuel + 1, header =>
    let hash := M.hashHeader header
    if header.difficulty ≤ lenChars hash then
      match parseU32 (takeChars hash header.difficulty) with
      | some 0 => .sealed header
      | _ =>
        Chain.proof_of_work M fuel
          { header with nonce := (header.nonce + 1) % 2 ^ 32 }
    else .panicked

/-- Extracts the sealed header, `none` while the loop has not accepted. -/
def PowResult.sealedHeader? : PowResult → Option BlockHeader
  | .sealed h => some h
  | _ => none

/-- The `while merkle.len() > 1` loop of `Chain::get_merkle`: remove the
first two hashes, hash the concatenation of the first with the second,
push the result to the back.  Each iteration shortens the list by one,
so running it with fuel equal to the initial length (as `get_merkle`
below does) reaches the length-at-most-one exit in every case; the
fuel-exhaustion clause is never taken from that call site.  The fuel
only makes the structural recursion explicit. -/
def merkleFold (M : HashModel) : Nat → List String → List String
  | _, [] => []
  | _, [hash] => [hash]
  | 0, l => l
  | n + 1, hash_one :: hash_two :: rest =>
    merkleFold M n (rest ++ [M.hashStr (hash_one ++ hash_two)])

/-- Model of `Chain::get_merkle`: hash each transaction into a leaf list,
duplicate the last leaf when the count is odd, fold pairs until at most
one hash remains; the final `merkle.pop().unwrap()` panics on `none`,
modelled by an `Option` result. -/
def Chain.get_merkle (M : HashModel) (current_transactions : List Transaction) :
    Option String :=
  let merkle := current_transactions.map M.hashTx
  let merkle :=
    if merkle.length % 2 == 1 then merkle ++ [merkle.getLastD ""] else merkle
  match merkleFold M merkle.length merkle with
  | [root] => some root
  | _ => none

/-- Model of `Chain::generate_new_block`: build the header from `last_hash` and
the current difficulty, prepend the reward transaction (from the current
`miner_address` and `reward`) to the drained pending pool, set `count`
and `merkle`, run the proof of work, append the sealed block.  `none`
models an execution that never returns (mining exceeds the fuel, or the
out-of-bounds slice panic); on return the function yields `true`. -/
def Chain.generate_new_block (M : HashModel) (timestamp : ℤ) (fuel : Nat)
    (c : Chain) : Option (Chain × Bool) :=
  let block_header : BlockHeader :=
    { timestamp := timestamp
      nonce := 0
      prev_hash := Chain.last_hash M c
      merkle := ""
      difficulty := c.difficulty }
  let reward_transaction : Transaction :=
    { sender := "Root", receiver := c.miner_address, amount := c.reward }
  let transactions := reward_transaction :: c.current_transactions
  let count := transactions.length
  match Chain.get_merkle M transactions with
  | none => none
  | some root =>
    match Chain.proof_of_work M fuel { block_header with merkle := root } with
    | .sealed header =>
      some ({ c with
                blocks := c.blocks ++ [⟨header, count, transactions⟩]
                current_transactions := [] }, true)
    | _ => none

/-- Model of `Chain::new`: reward starts at `100.0`, then one block-creation
cycle produces the genesis block. -/
def Chain.new (M : HashModel) (timestamp : ℤ) (fuel : Nat)
    (miner_address : String) (difficulty : Nat) : Option Chain :=
  let chain : Chain :=
    { blocks := []
      current_transactions := []
      difficulty := difficulty
      miner_address := miner_address
      reward := 100 }
  (Chain.generate_new_block M timestamp fuel chain).map Prod.fst

/-- One call of the public mutating interface; block creation carries
its clock reading and mining fuel as oracle inputs. -/
inductive Op where
  | newTransaction (sender receiver : String) (amount : ℚ)
  | updateDifficulty (d : Nat)
  | updateReward (r : ℚ)
  | generateNewBlock (timestamp : ℤ) (fuel : Nat)
deriving DecidableEq, Repr

/-- Apply one operation; `none` when the call never returns. -/
def applyOp (M : HashModel) (c : Chain) : Op → Option Chain
  | .newTransaction s r a => some (Chain.new_transaction c s r a).1
  | .updateDifficulty d => some (Chain.update_difficulty c d).1
  | .updateReward r => some (Chain.update_reward c r).1
  | .generateNewBlock ts fuel =>
    (Chain.generate_new_block M ts fuel c).map Prod.fst

/-- Run a sequence of operations. -/
def run (M : HashModel) (c : Chain) : List Op → Option Chain
  | [] => some c
  | op :: ops => (applyOp M c op).bind (fun c' => run M c' ops)

/-- A ledger state reachable by some sequence of operations after
construction. -/
def Reachable (M : HashModel) (c : Chain) : Prop :=
  ∃ ts fuel miner d c0 ops,
    Chain.new M ts fuel miner d = some c0 ∧ run M c0 ops = some c

/-- A concrete computable hash model used by the closed witnesses. -/
def M0 : HashModel :=
  { hashTx := fun _ => "aa"
    hashHeader := fun _ => "07"
    hashStr := fun _ => "bb" }

/-- Predicate `linked M s bs`: the blocks `bs` form a hash chain anchored at `s` —
the first block's `prev_hash` is `s` and each later block's `prev_hash`
is the hash of its predecessor's header. -/
def linked (M : HashModel) : String → List Block → Prop
  | _, [] => True
  | prev, b :: bs => b.header.prev_hash = prev ∧ linked M (M.hashHeader b.header) bs

/-- The hash the next block of the chain `bs` (anchored at `s`) must
record: the hash of the last header, or the anchor itself when `bs` is
empty.  Agrees with `Chain.last_hash` for `s = zeros64`. -/
def anchor (M : HashModel) (s : String) : List Block → String
  | [] => s
  | b :: bs => anchor M (M.hashHeader b.header) bs

/-- The ledger invariant maintained by every operation: the block list
is a hash chain anchored at the 64-zero sentinel, and every committed
block has a consistent `count` and a `merkle` field equal to the Merkle
root of its transaction list. -/
def ChainInv (M : HashModel) (c : Chain) : Prop :=
  linked M zeros64 c.blocks ∧
  ∀ b ∈ c.blocks,
    b.count = b.transactions.length ∧
    Chain.get_merkle M b.transactions = some b.header.merkle

/-- Fallback value for extracting concrete chains from `Option`. -/
def chainDefault : Chain :=
  { blocks := [], current_transactions := [], difficulty := 0
    miner_address := "", reward := 0 }

/-- The concrete genesis ledger produced by `Chain.new` under `M0`. -/
def c0demo : Chain := (Chain.new M0 0 2 "m" 1).getD chainDefault

/-- Ledger `c0demo` after one further block creation. -/
def c2demo : Chain :=
  (run M0 c0demo [Op.generateNewBlock 1 2]).getD chainDefault

/-- A concrete header whose `difficulty` is `0`, used to exercise the
proof-of-work loop at difficulty zero. -/
def hdrD0 : BlockHeader :=
  { timestamp := 0, nonce := 0, prev_hash := "", merkle := "", difficulty := 0 }

/-- Fallback value for extracting concrete blocks from lists. -/
def blockDefault : Block := ⟨hdrD0, 0, []⟩

/-- The genesis block of `c0demo`. -/
def gblockDemo : Block := c0demo.blocks.getD 0 blockDefault

/-- Concrete ledger: two transactions submitted to `c0demo`, then one
block created. -/
def c6demo : Chain :=
  (run M0 c0demo [Op.newTransaction "a" "b" 1, Op.newTransaction "c" "d" 2,
    Op.generateNewBlock 1 4]).getD chainDefault

theorem pow_sealed_fields (M : HashModel) :
    ∀ (fuel : Nat) (hdr h : BlockHeader),
      Chain.proof_of_work M fuel hdr = .sealed h →
      h.timestamp = hdr.timestamp ∧ h.prev_hash = hdr.prev_hash ∧
        h.merkle = hdr.merkle ∧ h.difficulty = hdr.difficulty := by
  intro fuel
  induction fuel with
  | zero => intro hdr h hh; simp [Chain.proof_of_work] at hh
  | succ n ih =>
    intro hdr h hh
    simp only [Chain.proof_of_work] at hh
    split at hh
    · split at hh
      · cases hh; exact ⟨rfl, rfl, rfl, rfl⟩
      · exact ih { hdr with nonce := (hdr.nonce + 1) % 2 ^ 32 } h hh
    · simp at hh

/-- C1 (amended): with difficulty 0 the hash prefix of length 0 is the
empty string, which fails to parse as an integer, so `proof_of_work`
never accepts: under every attempt bound the loop is still running (it
increments the nonce on each attempt and never breaks out). -/
theorem proof_of_work_difficulty_zero_never_seals (M : HashModel) :
    ∀ (fuel : Nat) (hdr : BlockHeader), hdr.difficulty = 0 →
      (Chain.proof_of_work M fuel hdr).sealedHeader? = none := by
  intro fuel
  induction fuel with
  | zero => intro hdr h; rfl
  | succ n ih =>
    intro hdr h
    have h0 : parseU32 (takeChars (M.hashHeader hdr) hdr.difficulty) = none := by
      rw [h]; rfl
    simp only [Chain.proof_of_work]
    split
    · split
      · rename_i heq; rw [h0] at heq; cases heq
      · exact ih _ h
    · rfl

theorem merkleFold_singleton (M : HashModel) :
    ∀ (n : Nat) (l : List String), l ≠ [] → l.length ≤ n + 1 →
      ∃ r, merkleFold M n l = [r] := by
  intro n
  induction n with
  | zero =>
    intro l hne hlen
    match l with
    | [a] => exact ⟨a, rfl⟩
  | succ n ih =>
    intro l hne hlen
    match l with
    | [a] => exact ⟨a, rfl⟩
    | a :: b :: rest =>
      have : merkleFold M (n + 1) (a :: b :: rest)
          = merkleFold M n (rest ++ [M.hashStr (a ++ b)]) := rfl
      rw [this]
      apply ih
      · simp
      · simp at hlen ⊢; omega

theorem get_merkle_nil (M : HashModel) : Chain.get_merkle M [] = none := rfl

theorem get_merkle_isSome (M : HashModel) (txs : List Transaction) (h : txs ≠ []) :
    ∃ root, Chain.get_merkle M txs = some root := by
  simp only [Chain.get_merkle]
  set merkle := txs.map M.hashTx with hm
  have hmne : merkle ≠ [] := by
    simp [hm, h]
  set padded := if merkle.length % 2 == 1 then merkle ++ [merkle.getLastD ""] else merkle with hp
  have hpne : padded ≠ [] := by
    rw [hp]; split
    · simp [hmne]
    · exact hmne
  obtain ⟨r, hr⟩ := merkleFold_singleton M padded.length padded hpne (by omega)
  rw [hr]
  exact ⟨r, rfl⟩

theorem generate_spec (M : HashModel) (ts : ℤ) (fuel : Nat) (c c' : Chain) (r : Bool)
    (h : Chain.generate_new_block M ts fuel c = some (c', r)) :
    r = true ∧ ∃ hdr : BlockHeader,
      hdr.timestamp = ts ∧
      hdr.prev_hash = Chain.last_hash M c ∧
      hdr.difficulty = c.difficulty ∧
      Chain.get_merkle M
          (⟨"Root", c.miner_address, c.reward⟩ :: c.current_transactions)
        = some hdr.merkle ∧
      c' = { c with
              blocks := c.blocks ++
                [⟨hdr, (⟨"Root", c.miner_address, c.reward⟩ :: c.current_transactions).length,
                  ⟨"Root", c.miner_address, c.reward⟩ :: c.current_transactions⟩]
              current_transactions := [] } := by
  simp only [Chain.generate_new_block] at h
  split at h
  · cases h
  · rename_i root hroot
    split at h
    · rename_i hdr hpow
      rw [Option.some.injEq, Prod.mk.injEq] at h
      obtain ⟨hfst, hsnd⟩ := h
      obtain ⟨hts, hprev, hmer, hdif⟩ := pow_sealed_fields M fuel _ hdr hpow
      refine ⟨hsnd.symm, hdr, hts, hprev, hdif, ?_, ?_⟩
      · rw [hroot, hmer]
      · rw [← hfst]
    · cases h

theorem new_spec (M : HashModel) (ts : ℤ) (fuel : Nat) (m : String) (d : Nat)
    (c : Chain) (h : Chain.new M ts fuel m d = some c) :
    c.reward = 100 ∧ c.miner_address = m ∧ c.difficulty = d ∧
    c.current_transactions = [] ∧
    ∃ hdr : BlockHeader,
      c.blocks = [⟨hdr, 1, [⟨"Root", m, 100⟩]⟩] ∧
      hdr.prev_hash = zeros64 ∧ hdr.timestamp = ts ∧ hdr.difficulty = d ∧
      Chain.get_merkle M [⟨"Root", m, 100⟩] = some hdr.merkle := by
  simp only [Chain.new, Option.map_eq_some'] at h
  obtain ⟨⟨c1, r⟩, hg, hc⟩ := h
  obtain ⟨-, hdr, hts, hprev, hdif, hmer, hc'⟩ := generate_spec M ts fuel _ c1 r hg
  subst hc
  subst hc'
  refine ⟨rfl, rfl, rfl, rfl, hdr, rfl, ?_, hts, hdif, hmer⟩
  rw [hprev]; rfl

theorem anchor_cons (M : HashModel) (s : String) (b : Block) (bs : List Block) :
    anchor M s (b :: bs) = anchor M (M.hashHeader b.header) bs := rfl

theorem anchor_snoc (M : HashModel) :
    ∀ (bs : List Block) (s : String) (b : Block),
      anchor M s (bs ++ [b]) = M.hashHeader b.header := by
  intro bs
  induction bs with
  | nil => intro s b; rfl
  | cons b0 rest ih => intro s b; rw [List.cons_append, anchor_cons, ih]

theorem last_hash_eq_anchor (M : HashModel) (c : Chain) :
    Chain.last_hash M c = anchor M zeros64 c.blocks := by
  rcases List.eq_nil_or_concat c.blocks with h | ⟨l, b, h⟩
  · simp only [Chain.last_hash, h]
    rfl
  · simp only [Chain.last_hash, h, List.concat_eq_append, List.getLast?_concat,
      anchor_snoc]

theorem linked_snoc (M : HashModel) :
    ∀ (bs : List Block) (s : String) (b : Block), linked M s bs →
      b.header.prev_hash = anchor M s bs → linked M s (bs ++ [b]) := by
  intro bs
  induction bs with
  | nil => intro s b _ hb; exact ⟨hb, trivial⟩
  | cons b0 rest ih =>
    intro s b hl hb
    obtain ⟨h0, hrest⟩ := hl
    exact ⟨h0, ih _ b hrest (by rw [hb, anchor_cons])⟩

theorem linked_get (M : HashModel) :
    ∀ (bs : List Block) (s : String), linked M s bs →
      ∀ (i : Nat) (h : i + 1 < bs.length),
        (bs.get ⟨i + 1, h⟩).header.prev_hash
          = M.hashHeader (bs.get ⟨i, Nat.lt_of_succ_lt h⟩).header := by
  intro bs
  induction bs with
  | nil => intro s _ i h; simp at h
  | cons b0 rest ih =>
    intro s hl i h
    obtain ⟨h0, hrest⟩ := hl
    cases i with
    | zero =>
      cases rest with
      | nil => simp at h
      | cons b1 rest' => exact hrest.1
    | succ j =>
      exact ih _ hrest j (by simpa using h)

theorem inv_generate (M : HashModel) (ts : ℤ) (fuel : Nat) (c c' : Chain) (r : Bool)
    (hI : ChainInv M c) (h : Chain.generate_new_block M ts fuel c = some (c', r)) :
    ChainInv M c' := by
  obtain ⟨-, hdr, hts, hprev, hdif, hmer, hc'⟩ := generate_spec M ts fuel c c' r h
  subst hc'
  refine ⟨?_, ?_⟩
  · apply linked_snoc M c.blocks zeros64 _ hI.1
    show hdr.prev_hash = _
    rw [hprev, last_hash_eq_anchor]
  · intro b hb
    rcases List.mem_append.mp hb with hb | hb
    · exact hI.2 b hb
    · rw [List.mem_singleton.mp hb]
      exact ⟨rfl, hmer⟩

theorem inv_applyOp (M : HashModel) (c : Chain) (op : Op) (c' : Chain)
    (hI : ChainInv M c) (h : applyOp M c op = some c') : ChainInv M c' := by
  cases op with
  | newTransaction s r a =>
    cases h
    exact ⟨hI.1, hI.2⟩
  | updateDifficulty d =>
    cases h
    exact ⟨hI.1, hI.2⟩
  | updateReward r =>
    cases h
    exact ⟨hI.1, hI.2⟩
  | generateNewBlock ts fuel =>
    simp only [applyOp, Option.map_eq_some'] at h
    obtain ⟨⟨c1, r⟩, hg, hc⟩ := h
    subst hc
    exact inv_generate M ts fuel c c1 r hI hg

theorem inv_run (M : HashModel) :
    ∀ (ops : List Op) (c c' : Chain), ChainInv M c → run M c ops = some c' →
      ChainInv M c' := by
  intro ops
  induction ops with
  | nil => intro c c' hI h; cases h; exact hI
  | cons op rest ih =>
    intro c c' hI h
    simp only [run, Option.bind_eq_some] at h
    obtain ⟨c1, h1, h2⟩ := h
    exact ih c1 c' (inv_applyOp M c op c1 hI h1) h2

theorem inv_new (M : HashModel) (ts : ℤ) (fuel : Nat) (m : String) (d : Nat)
    (c : Chain) (h : Chain.new M ts fuel m d = some c) : ChainInv M c := by
  obtain ⟨-, -, -, -, hdr, hb, hprev, -, -, hmer⟩ := new_spec M ts fuel m d c h
  refine ⟨?_, ?_⟩
  · rw [hb]
    exact ⟨hprev, trivial⟩
  · intro b hbm
    rw [hb] at hbm
    rw [List.mem_singleton.mp hbm]
    exact ⟨rfl, hmer⟩

theorem reachable_inv (M : HashModel) (c : Chain) (h : Reachable M c) :
    ChainInv M c := by
  obtain ⟨ts, fuel, m, d, c0, ops, hnew, hrun⟩ := h
  exact inv_run M ops c0 c (inv_new M ts fuel m d c0 hnew) hrun

theorem run_append (M : HashModel) :
    ∀ (l1 l2 : List Op) (c : Chain),
      run M c (l1 ++ l2) = (run M c l1).bind (fun c' => run M c' l2) := by
  intro l1
  induction l1 with
  | nil => intro l2 c; rfl
  | cons op rest ih =>
    intro l2 c
    simp only [List.cons_append, run, Option.bind_assoc]
    cases applyOp M c op with
    | none => rfl
    | some c1 => exact ih l2 c1

theorem reachable_run (M : HashModel) (c c' : Chain) (ops : List Op)
    (h : Reachable M c) (hr : run M c ops = some c') : Reachable M c' := by
  obtain ⟨ts, fuel, m, d, c0, ops0, hnew, hrun⟩ := h
  exact ⟨ts, fuel, m, d, c0, ops0 ++ ops, hnew, by
    rw [run_append M ops0 ops c0, hrun]
    exact hr⟩


/-- C1 counterexample: at the concrete header `hdrD0` (difficulty 0),
the first proof-of-work attempt does NOT accept — the length-0 hash
prefix is the empty string, `"".parse::<u32>()` is an error (not the
integer zero), so the loop takes the error branch, increments the nonce
to 1, and keeps running.  This refutes the claim that difficulty 0
accepts on the first attempt with the nonce left at 0. -/
theorem proof_of_work_difficulty_zero_counterexample :
    Chain.proof_of_work M0 1 hdrD0 = PowResult.outOfFuel { hdrD0 with nonce := 1 } ∧
    parseU32 "" = none := ⟨rfl, rfl⟩

/-- C1 witness: the amended theorem applied to the concrete header
`hdrD0` with 5 attempts of fuel. -/
theorem proof_of_work_difficulty_zero_witness :
    hdrD0.difficulty = 0 ∧ (Chain.proof_of_work M0 5 hdrD0).sealedHeader? = none :=
  ⟨rfl, proof_of_work_difficulty_zero_never_seals M0 5 hdrD0 rfl⟩

/-- C3: for every ledger reachable by any sequence of operations after
construction and every block index `i > 0`, `blocks[i].header.prev_hash`
equals the hash of `blocks[i-1].header`. -/
theorem reachable_prev_hash_links (M : HashModel) (c : Chain) (h : Reachable M c)
    (i : Nat) (hi : 0 < i) (hlt : i < c.blocks.length) :
    (c.blocks.get ⟨i, hlt⟩).header.prev_hash
      = M.hashHeader
          (c.blocks.get ⟨i - 1, Nat.lt_of_le_of_lt (Nat.sub_le i 1) hlt⟩).header := by
  obtain ⟨hl, -⟩ := reachable_inv M c h
  obtain ⟨j, rfl⟩ : ∃ j, i = j + 1 := ⟨i - 1, (Nat.succ_pred_eq_of_pos hi).symm⟩
  exact linked_get M c.blocks zeros64 hl j hlt

/-- C3 witness: the linkage at index 1 of the concrete two-block ledger
`c2demo`. -/
theorem reachable_prev_hash_links_witness :
    Reachable M0 c2demo ∧ 0 < 1 ∧ 1 < c2demo.blocks.length ∧
    (c2demo.blocks.get ⟨1, by decide⟩).header.prev_hash
      = M0.hashHeader (c2demo.blocks.get ⟨0, by decide⟩).header :=
  ⟨⟨0, 2, "m", 1, c0demo, [Op.generateNewBlock 1 2], rfl, rfl⟩, by decide, by decide,
   reachable_prev_hash_links M0 c2demo
     ⟨0, 2, "m", 1, c0demo, [Op.generateNewBlock 1 2], rfl, rfl⟩ 1 (by decide)
     (by decide)⟩

/-- C4: for every reachable ledger, every committed block's `merkle`
field equals the Merkle root (`Chain.get_merkle`: hash each transaction
into leaves, duplicate the last leaf when the count is odd, then
repeatedly hash the concatenation of the first two hashes, appending the
result, until one hash remains) of its transaction list as stored at
seal time. -/
theorem reachable_merkle_root (M : HashModel) (c : Chain) (h : Reachable M c) :
    ∀ b ∈ c.blocks, Chain.get_merkle M b.transactions = some b.header.merkle :=
  fun b hb => ((reachable_inv M c h).2 b hb).2

/-- C4 witness: the Merkle invariant on the genesis block of the
concrete ledger `c0demo`. -/
theorem reachable_merkle_invariant_witness :
    Reachable M0 c0demo ∧ gblockDemo ∈ c0demo.blocks ∧
    Chain.get_merkle M0 gblockDemo.transactions = some gblockDemo.header.merkle :=
  ⟨⟨0, 2, "m", 1, c0demo, [], rfl, rfl⟩, by decide,
   reachable_merkle_root M0 c0demo ⟨0, 2, "m", 1, c0demo, [], rfl, rfl⟩
     gblockDemo (by decide)⟩

/-- C5: every operation leaves the already-committed blocks unchanged
(the old block list is a prefix of the new one) — in particular
`update_reward` and any change to the miner address never touch a
committed block — and a block-creation operation appends exactly one
block whose first transaction is the reward transaction
`{ sender := "Root", receiver := miner_address, amount := reward }`
captured from the ledger state at seal time. -/
theorem committed_blocks_immutable_reward_snapshot (M : HashModel) (c : Chain)
    (op : Op) (c' : Chain) (h : applyOp M c op = some c') :
    c.blocks <+: c'.blocks ∧
    ∀ (ts : ℤ) (fuel : Nat), op = Op.generateNewBlock ts fuel →
      ∃ b, c'.blocks = c.blocks ++ [b] ∧
        b.transactions.head? = some ⟨"Root", c.miner_address, c.reward⟩ := by
  cases op with
  | newTransaction s r a =>
    cases h
    exact ⟨⟨[], List.append_nil _⟩, by intro ts fuel heq; cases heq⟩
  | updateDifficulty d =>
    cases h
    exact ⟨⟨[], List.append_nil _⟩, by intro ts fuel heq; cases heq⟩
  | updateReward r =>
    cases h
    exact ⟨⟨[], List.append_nil _⟩, by intro ts fuel heq; cases heq⟩
  | generateNewBlock ts fuel =>
    simp only [applyOp, Option.map_eq_some'] at h
    obtain ⟨⟨c1, r⟩, hg, hc⟩ := h
    subst hc
    obtain ⟨-, hdr, -, -, -, -, hc'⟩ := generate_spec M ts fuel c c1 r hg
    subst hc'
    exact ⟨⟨_, rfl⟩, fun ts' fuel' _ => ⟨_, rfl, rfl⟩⟩

/-- C5 witness: one concrete block creation on `c0demo`. -/
theorem committed_blocks_immutable_reward_snapshot_witness :
    applyOp M0 c0demo (Op.generateNewBlock 1 2) = some c2demo ∧
    c0demo.blocks <+: c2demo.blocks ∧
    ∃ b, c2demo.blocks = c0demo.blocks ++ [b] ∧
      b.transactions.head? = some ⟨"Root", c0demo.miner_address, c0demo.reward⟩ :=
  ⟨rfl,
   (committed_blocks_immutable_reward_snapshot M0 c0demo
      (Op.generateNewBlock 1 2) c2demo rfl).1,
   (committed_blocks_immutable_reward_snapshot M0 c0demo
      (Op.generateNewBlock 1 2) c2demo rfl).2 1 2 rfl⟩

/-- C6: starting from any reachable ledger with an empty pending pool,
submitting transactions A then B and then creating a block commits a
block whose transaction list is exactly `[reward, A, B]` with
`count = 3`, empties the pending pool, and (in general) every committed
block's `count` equals the length of its transaction list. -/
theorem submit_two_then_create_block (M : HashModel) (c : Chain)
    (sA rA : String) (aA : ℚ) (sB rB : String) (aB : ℚ) (ts : ℤ) (fuel : Nat)
    (c' : Chain) (hreach : Reachable M c) (hpend : c.current_transactions = [])
    (h : run M c [Op.newTransaction sA rA aA, Op.newTransaction sB rB aB,
          Op.generateNewBlock ts fuel] = some c') :
    (∃ b, c'.blocks = c.blocks ++ [b] ∧
       b.transactions
         = [⟨"Root", c.miner_address, c.reward⟩, ⟨sA, rA, aA⟩, ⟨sB, rB, aB⟩] ∧
       b.count = 3) ∧
    c'.current_transactions = [] ∧
    ∀ b ∈ c'.blocks, b.count = b.transactions.length := by
  have hcount : ∀ b ∈ c'.blocks, b.count = b.transactions.length :=
    fun b hb => ((reachable_inv M c' (reachable_run M c c' _ hreach h)).2 b hb).1
  simp only [run, applyOp, Chain.new_transaction, Option.some_bind] at h
  rw [Option.bind_eq_some] at h
  obtain ⟨c3, h3, hc3⟩ := h
  rw [Option.map_eq_some'] at h3
  obtain ⟨⟨c1, r⟩, hg, hc1⟩ := h3
  cases hc3
  subst hc1
  obtain ⟨-, hdr, -, -, -, -, hc'⟩ := generate_spec M ts fuel _ c1 r hg
  subst hc'
  refine ⟨⟨_, rfl, ?_, ?_⟩, rfl, hcount⟩
  · simp [hpend]
  · simp [hpend]

/-- C6 witness: the scenario run concretely on `c0demo`, producing
`c6demo`. -/
theorem submit_two_then_create_block_witness :
    Reachable M0 c0demo ∧ c0demo.current_transactions = [] ∧
    run M0 c0demo [Op.newTransaction "a" "b" 1, Op.newTransaction "c" "d" 2,
        Op.generateNewBlock 1 4] = some c6demo ∧
    ((∃ b, c6demo.blocks = c0demo.blocks ++ [b] ∧
        b.transactions
          = [⟨"Root", c0demo.miner_address, c0demo.reward⟩, ⟨"a", "b", 1⟩,
             ⟨"c", "d", 2⟩] ∧
        b.count = 3) ∧
      c6demo.current_transactions = [] ∧
      ∀ b ∈ c6demo.blocks, b.count = b.transactions.length) :=
  ⟨⟨0, 2, "m", 1, c0demo, [], rfl, rfl⟩, rfl, rfl,
   submit_two_then_create_block M0 c0demo "a" "b" 1 "c" "d" 2 1 4 c6demo
     ⟨0, 2, "m", 1, c0demo, [], rfl, rfl⟩ rfl rfl⟩

/-- C7: `last_hash` returns the 64-ASCII-`'0'` sentinel when the block
list is empty and the hash of the most recently committed block's header
otherwise; consequently the genesis block produced by `Chain.new`
records the 64-zero sentinel as its `prev_hash`. -/
theorem last_hash_spec (M : HashModel) :
    (∀ c : Chain, c.blocks = [] → Chain.last_hash M c = zeros64) ∧
    (∀ (c : Chain) (b : Block), c.blocks.getLast? = some b →
       Chain.last_hash M c = M.hashHeader b.header) ∧
    (∀ (ts : ℤ) (fuel : Nat) (m : String) (d : Nat) (c : Chain),
       Chain.new M ts fuel m d = some c →
       ∃ b bs, c.blocks = b :: bs ∧ b.header.prev_hash = zeros64) := by
  refine ⟨?_, ?_, ?_⟩
  · intro c hc
    simp only [Chain.last_hash, hc, List.getLast?_nil]
  · intro c b hb
    simp only [Chain.last_hash, hb]
  · intro ts fuel m d c h
    obtain ⟨-, -, -, -, hdr, hb, hprev, -, -, -⟩ := new_spec M ts fuel m d c h
    exact ⟨_, _, hb, hprev⟩

/-- C7 witness: the three parts instantiated on the empty ledger
`chainDefault` and the concrete genesis ledger `c0demo`. -/
theorem last_hash_spec_witness :
    (chainDefault.blocks = [] ∧ Chain.last_hash M0 chainDefault = zeros64) ∧
    (c0demo.blocks.getLast? = some gblockDemo ∧
      Chain.last_hash M0 c0demo = M0.hashHeader gblockDemo.header) ∧
    (Chain.new M0 0 2 "m" 1 = some c0demo ∧
      ∃ b bs, c0demo.blocks = b :: bs ∧ b.header.prev_hash = zeros64) :=
  ⟨⟨rfl, (last_hash_spec M0).1 chainDefault rfl⟩,
   ⟨rfl, (last_hash_spec M0).2.1 c0demo gblockDemo rfl⟩,
   ⟨rfl, (last_hash_spec M0).2.2 0 2 "m" 1 c0demo rfl⟩⟩

/-- C8: `bytes_to_hex_string` renders each byte with unpadded `{:x}`,
so a byte below `0x10` contributes one character: the distinct byte
sequences `[0x01, 0x02]` and `[0x12]` both encode to `"12"` (the
encoding is not injective), every byte below 16 contributes exactly one
character, and a 32-byte digest can encode to fewer than 64
characters. -/
theorem bytes_to_hex_string_unpadded_not_injective :
    Chain.bytes_to_hex_string [1, 2] = "12" ∧
    Chain.bytes_to_hex_string [18] = "12" ∧
    [1, 2] ≠ ([18] : List Nat) ∧
    ((List.range 16).all fun b => (byteToHex b).length == 1) = true ∧
    ∃ digest : List Nat, digest.length = 32 ∧
      (digest.all fun b => decide (b < 256)) = true ∧
      lenChars (Chain.bytes_to_hex_string digest) < 64 :=
  ⟨rfl, rfl, by decide, by decide,
   List.replicate 32 1, by decide, by decide, by decide⟩

/-- C8 witness: the length of the hex encoding of a concrete 32-byte
digest, extracted from the theorem. -/
theorem bytes_to_hex_string_unpadded_not_injective_witness :
    ∃ digest : List Nat, digest.length = 32 ∧
      (digest.all fun b => decide (b < 256)) = true ∧
      lenChars (Chain.bytes_to_hex_string digest) < 64 :=
  bytes_to_hex_string_unpadded_not_injective.2.2.2.2

/-- C9: `get_merkle` on an empty transaction list fails (the final
`pop().unwrap()` unwraps `None`, modelled as a `none` result), and on
every non-empty list all unwraps succeed and a single root hash is
returned. -/
theorem get_merkle_empty_vs_nonempty (M : HashModel) :
    Chain.get_merkle M [] = none ∧
    ∀ txs : List Transaction, txs ≠ [] →
      ∃ root, Chain.get_merkle M txs = some root :=
  ⟨rfl, fun txs h => get_merkle_isSome M txs h⟩

/-- C9 witness: the non-empty case on a concrete one-transaction
list. -/
theorem get_merkle_empty_vs_nonempty_witness :
    [(⟨"a", "b", 1⟩ : Transaction)] ≠ [] ∧
    ∃ root, Chain.get_merkle M0 [⟨"a", "b", 1⟩] = some root :=
  ⟨by decide,
   (get_merkle_empty_vs_nonempty M0).2 [⟨"a", "b", 1⟩] (by decide)⟩

/-- C10: a ledger built by `Chain::new` has `reward = 100`, so the
genesis block's reward transaction is
`{ sender := "Root", receiver := miner, amount := 100 }`. -/
theorem new_chain_reward_100 (M : HashModel) (ts : ℤ) (fuel : Nat) (m : String)
    (d : Nat) (c : Chain) (h : Chain.new M ts fuel m d = some c) :
    c.reward = 100 ∧
    ∃ b, c.blocks = [b] ∧ b.transactions.head? = some ⟨"Root", m, 100⟩ := by
  obtain ⟨hr, -, -, -, hdr, hb, -⟩ := new_spec M ts fuel m d c h
  exact ⟨hr, _, hb, rfl⟩

/-- C10 witness: `Chain.new` run concretely, giving `c0demo`. -/
theorem new_chain_reward_100_witness :
    Chain.new M0 0 2 "m" 1 = some c0demo ∧
    (c0demo.reward = 100 ∧
      ∃ b, c0demo.blocks = [b] ∧
        b.transactions.head? = some ⟨"Root", "m", 100⟩) :=
  ⟨rfl, new_chain_reward_100 M0 0 2 "m" 1 c0demo rfl⟩
